import Mathlib

/-!
Shallow embedding of the `traffic-optimizers` repository (python) in Lean 4.

Numbers are modelled by `ℚ` (python floats/ints, idealized to exact rationals),
randomness by explicit oracle parameters (each random draw of the python code
becomes an input), and python exceptions by `Except` values.
-/

namespace TrafficOptimizers

/-- Integer truncation toward zero, python's `int()` applied to a float. -/
def truncZ (q : ℚ) : ℤ := if 0 ≤ q then ⌊q⌋ else ⌈q⌉

/-- `PhaseConfig` dataclass from `src/common/typings.py`:
green, amber and all-red durations of one signal phase. -/
structure PhaseConfig where
  green : ℚ
  amber : ℚ
  all_red : ℚ
deriving DecidableEq

instance : Inhabited PhaseConfig := ⟨⟨0, 0, 0⟩⟩

/-- `TrafficConfiguration` from `src/common/typings.py`: a list of phases. -/
abbrev TrafficConfiguration := List PhaseConfig

/-- `Population` from `src/common/typings.py`: a list of configurations. -/
abbrev Population := List TrafficConfiguration

/-- Error outcomes of the Webster seeding pipeline: python's
`ZeroDivisionError` and `IndexError`, plus exhaustion of the modelled
draw budget for the (unbounded) rejection-sampling `while` loop. -/
inductive SeedErr where
  | zeroDivision
  | indexError
  | noAcceptedDraw
deriving DecidableEq

/-- Sequencing of fallible element-wise computations, modelling a python
list comprehension in which each element's computation may raise: the first
raising element aborts the whole comprehension with its error. -/
def exceptMap {ε α β : Type} (f : α → Except ε β) : List α → Except ε (List β)
  | [] => .ok []
  | x :: xs =>
    match f x, exceptMap f xs with
    | .error e, _ => .error e
    | .ok _, .error e => .error e
    | .ok y, .ok ys => .ok (y :: ys)

/-- `compute_amber_time` from `src/common/compute.py`: `ceil(tr + v / (2*a))`.
A zero divisor raises `ZeroDivisionError` in python, modelled as an error. -/
def compute_amber_time (tr v a : ℚ) : Except SeedErr ℤ :=
  if 2 * a = 0 then .error .zeroDivision else .ok ⌈tr + v / (2 * a)⌉

/-- `compute_all_red_time` from `src/common/compute.py`: `ceil((W + L) / v)`. -/
def compute_all_red_time (W L v : ℚ) : Except SeedErr ℤ :=
  if v = 0 then .error .zeroDivision else .ok ⌈(W + L) / v⌉

/-- `compute_green_time` from `src/common/compute.py`: `ceil((y * (C - L)) / Y)`.
Python raises `ZeroDivisionError` when `Y` is zero; there is no guard. -/
def compute_green_time (y Y C L : ℚ) : Except SeedErr ℤ :=
  if Y = 0 then .error .zeroDivision else .ok ⌈y * (C - L) / Y⌉

/-- `simulate_poisson_arrival_rate` from `src/common/compute.py`:
`max(1, ceil(np.random.poisson(lam=q)))`; the Poisson sample (a natural
number, on which `ceil` is the identity) is the explicit input `draw`. -/
def simulate_poisson_arrival_rate (draw : ℕ) : ℕ := max 1 draw

/-- `websters_method` from `src/algorithms/websters/websters.py`:
`ceil(1.5 * L + 5) / (1 - Y)` — the ceiling is applied to the numerator only,
and the quotient is returned as a (possibly non-integral) float. -/
def websters_method (L Y : ℚ) : Except SeedErr ℚ :=
  if 1 - Y = 0 then .error .zeroDivision
  else .ok ((⌈(3 : ℚ) / 2 * L + 5⌉ : ℤ) / (1 - Y))

/-- Step 1 of `compute_signal_config_with_poisson`: one Poisson realization
per lambda rate. `ω t k` is the raw Poisson sample for attempt `t`, phase `k`. -/
def normalFlows (ω : ℕ → ℕ → ℕ) (t numLams : ℕ) : List ℕ :=
  (List.range numLams).map (fun k => simulate_poisson_arrival_rate (ω t k))

/-- Step 2 of `compute_signal_config_with_poisson`:
`[(q * 60) / s if s > 0 else 0 for q, s in zip(normal_flows, saturation_flows)]`. -/
def flowRatios (flows : List ℕ) (sats : List ℚ) : List ℚ :=
  List.zipWith (fun (q : ℕ) (s : ℚ) => if 0 < s then ((q : ℚ) * 60) / s else 0) flows sats

/-- Total critical ratio `Y = sum(flow_ratios)` for the draw of attempt `t`. -/
def Ysum (ω : ℕ → ℕ → ℕ) (t : ℕ) (sats lams : List ℚ) : ℚ :=
  (flowRatios (normalFlows ω t lams.length) sats).sum

/-- The rejection-sampling `while True` loop of
`compute_signal_config_with_poisson`: attempts `t = 0, 1, 2, ...` are tried in
order and the first with `Y < 1` is accepted; `fuel` bounds the modelled
number of attempts (python's loop is unbounded). -/
def acceptedAttempt (ω : ℕ → ℕ → ℕ) (sats lams : List ℚ) (fuel : ℕ) : Option ℕ :=
  (List.range fuel).find? (fun t => decide (Ysum ω t sats lams < 1))

/-- Step 6 of `compute_signal_config_with_poisson`: build one `PhaseConfig`
per green time, indexing the amber and all-red lists at the same position
(python raises `IndexError` when they are shorter). -/
def buildConfig (greens ambers reds : List ℤ) : Except SeedErr (List PhaseConfig) :=
  exceptMap (fun i =>
    match greens.get? i, ambers.get? i, reds.get? i with
    | some g, some am, some r => .ok ⟨(g : ℚ), (am : ℚ), (r : ℚ)⟩
    | _, _, _ => .error .indexError)
    (List.range greens.length)

/-- `compute_signal_config_with_poisson` from
`src/algorithms/websters/websters.py`. The Poisson sampler is the oracle `ω`
(attempt, phase index ↦ raw sample) and `fuel` bounds the rejection loop. -/
def compute_signal_config_with_poisson
    (sats lams : List ℚ) (reaction_time : ℚ) (road_widths : List ℚ)
    (vehicle_speed deceleration_rate vehicle_length : ℚ)
    (ω : ℕ → ℕ → ℕ) (fuel : ℕ) : Except SeedErr (List PhaseConfig) :=
  match acceptedAttempt ω sats lams fuel with
  | none => .error .noAcceptedDraw
  | some t =>
    let flows := normalFlows ω t lams.length
    let flow_ratios := flowRatios flows sats
    let Y := flow_ratios.sum
    match exceptMap (fun _W => compute_amber_time reaction_time vehicle_speed deceleration_rate)
            road_widths,
          exceptMap (fun W => compute_all_red_time W vehicle_length vehicle_speed)
            road_widths with
    | .error e, _ => .error e
    | .ok _, .error e => .error e
    | .ok amber_times, .ok all_red_times =>
      let L : ℤ := (amber_times ++ all_red_times).sum
      match websters_method (L : ℚ) Y with
      | .error e => .error e
      | .ok C =>
        match exceptMap (fun y => compute_green_time y Y C (L : ℚ)) flow_ratios with
        | .error e => .error e
        | .ok green_times => buildConfig green_times amber_times all_red_times

theorem exceptMap_ok_length {ε α β : Type} (f : α → Except ε β) :
    ∀ (l : List α) (ys : List β), exceptMap f l = .ok ys → ys.length = l.length := by
  intro l
  induction l with
  | nil => intro ys h; simp [exceptMap] at h; simp [← h]
  | cons x xs ih =>
    intro ys h
    unfold exceptMap at h
    cases hfx : f x with
    | error e => rw [hfx] at h; simp at h
    | ok y =>
      rw [hfx] at h
      cases hrest : exceptMap f xs with
      | error e => rw [hrest] at h; simp at h
      | ok ys2 =>
        rw [hrest] at h
        simp at h
        rw [← h]
        simp [ih ys2 hrest]

theorem exceptMap_ok_of_forall {ε α β : Type} (f : α → Except ε β) :
    ∀ (l : List α), (∀ x ∈ l, ∃ y, f x = .ok y) → ∃ ys, exceptMap f l = .ok ys := by
  intro l
  induction l with
  | nil => intro _; exact ⟨[], rfl⟩
  | cons x xs ih =>
    intro h
    obtain ⟨y, hy⟩ := h x (List.mem_cons_self x xs)
    obtain ⟨ys, hys⟩ := ih (fun z hz => h z (List.mem_cons_of_mem x hz))
    exact ⟨y :: ys, by simp [exceptMap, hy, hys]⟩

theorem exceptMap_error_head {ε α β : Type} (f : α → Except ε β) (x : α) (xs : List α)
    (e : ε) (h : f x = .error e) : exceptMap f (x :: xs) = .error e := by
  simp [exceptMap, h]

theorem buildConfig_ok_length (greens ambers reds : List ℤ) (cfg : List PhaseConfig)
    (h : buildConfig greens ambers reds = .ok cfg) : cfg.length = greens.length := by
  simpa using exceptMap_ok_length _ _ _ h

theorem flowRatios_length (flows : List ℕ) (sats : List ℚ) :
    (flowRatios flows sats).length = min flows.length sats.length := by
  simp [flowRatios]

theorem normalFlows_length (ω : ℕ → ℕ → ℕ) (t n : ℕ) : (normalFlows ω t n).length = n := by
  simp [normalFlows]

theorem flowRatios_sum_zero (flows : List ℕ) :
    ∀ (sats : List ℚ), (∀ s ∈ sats, s ≤ 0) → (flowRatios flows sats).sum = 0 := by
  induction flows with
  | nil => intro sats _; simp [flowRatios]
  | cons q qs ih =>
    intro sats hz
    cases sats with
    | nil => simp [flowRatios]
    | cons s ss =>
      have hs : ¬ (0 < s) := not_lt.mpr (hz s (List.mem_cons_self s ss))
      have := ih ss (fun x hx => hz x (List.mem_cons_of_mem s hx))
      simp only [flowRatios, List.zipWith_cons_cons, List.sum_cons, if_neg hs]
      simpa [flowRatios] using this

/-- C3: every configuration returned by the Webster seeder comes from the
first sampled arrival draw whose summed flow ratio satisfies `Y < 1`, and the
result has exactly one `PhaseConfig` per lambda-rate / saturation-flow entry. -/
theorem seeder_Y_lt_one (sats lams : List ℚ) (tr : ℚ) (widths : List ℚ) (v a vl : ℚ)
    (ω : ℕ → ℕ → ℕ) (fuel : ℕ) (cfg : List PhaseConfig)
    (hs : sats.length = lams.length)
    (hok : compute_signal_config_with_poisson sats lams tr widths v a vl ω fuel = .ok cfg) :
    ∃ t, acceptedAttempt ω sats lams fuel = some t ∧ Ysum ω t sats lams < 1 ∧
      cfg.length = lams.length := by
  simp only [compute_signal_config_with_poisson] at hok
  split at hok
  · exact absurd hok (by simp)
  · rename_i t hacc
    refine ⟨t, hacc, ?_, ?_⟩
    · have := List.find?_some hacc
      exact of_decide_eq_true this
    · split at hok
      · exact absurd hok (by simp)
      · exact absurd hok (by simp)
      · rename_i amber_times all_red_times ham hred
        split at hok
        · exact absurd hok (by simp)
        · rename_i C hC
          split at hok
          · exact absurd hok (by simp)
          · rename_i green_times hgr
            have h1 : cfg.length = green_times.length :=
              buildConfig_ok_length _ _ _ _ hok
            have h2 := exceptMap_ok_length _ _ _ hgr
            rw [h1, h2, flowRatios_length, normalFlows_length, hs]
            simp

/-- C8: the seeder's cycle length is exactly `ceil(1.5*L + 5) / (1 - Y)`, the
ceiling being applied only to the numerator and not to `C` itself (at `L = 2`,
`Y = 2/5` the returned `C = 40/3` is not an integer), and each phase's green
time is exactly `ceil(flow_ratio * (C - L) / Y)`. -/
theorem websters_formula_exact (L Y y C Lg : ℚ) (h1 : 1 - Y ≠ 0) (h2 : Y ≠ 0) :
    websters_method L Y = .ok ((⌈(3 : ℚ) / 2 * L + 5⌉ : ℤ) / (1 - Y)) ∧
    compute_green_time y Y C Lg = .ok ⌈y * (C - Lg) / Y⌉ ∧
    websters_method 2 (2 / 5) = .ok (40 / 3) ∧
    ((40 : ℚ) / 3) ≠ ((⌈(40 : ℚ) / 3⌉ : ℤ) : ℚ) := by
  have hc : (⌈(40 : ℚ) / 3⌉ : ℤ) = 14 := by
    rw [Int.ceil_eq_iff]
    norm_num
  refine ⟨by simp [websters_method, h1], by simp [compute_green_time, h2], ?_, ?_⟩
  · have h8 : ((3 : ℚ) / 2 * 2 + 5) = ((8 : ℤ) : ℚ) := by norm_num
    simp [websters_method, h8]
    norm_num
  · rw [hc]
    norm_num

/-- C8 witness: the formulas evaluated at `L = 2`, `Y = 2/5`. -/
theorem websters_formula_exact_witness :
    websters_method 2 (2 / 5) = .ok ((⌈(3 : ℚ) / 2 * 2 + 5⌉ : ℤ) / (1 - 2 / 5)) ∧
    compute_green_time 1 (2 / 5) 3 1 = .ok ⌈(1 : ℚ) * (3 - 1) / (2 / 5)⌉ ∧
    websters_method 2 (2 / 5) = .ok (40 / 3) ∧
    ((40 : ℚ) / 3) ≠ ((⌈(40 : ℚ) / 3⌉ : ℤ) : ℚ) :=
  websters_formula_exact 2 (2 / 5) 1 3 1 (by norm_num) (by norm_num)

/-- C10: when every saturation flow is zero (more generally, nonpositive, so
every flow ratio takes the `else 0` branch), the acceptance test `Y < 1`
passes with `Y = 0` on the very first draw, and the subsequent green-time
computation divides by `Y`, so `compute_signal_config_with_poisson` raises a
division-by-zero error instead of returning a configuration: there is no
guard for `Y = 0`. -/
theorem seeder_zero_Y_division_error (sats lams : List ℚ) (tr : ℚ) (widths : List ℚ)
    (v a vl : ℚ) (ω : ℕ → ℕ → ℕ) (fuel : ℕ)
    (hfuel : 0 < fuel) (hlam : lams ≠ []) (hs : sats.length = lams.length)
    (hz : ∀ s ∈ sats, s ≤ 0) (ha : a ≠ 0) (hv : v ≠ 0) :
    Ysum ω 0 sats lams = 0 ∧
    compute_signal_config_with_poisson sats lams tr widths v a vl ω fuel =
      .error .zeroDivision := by
  have hY0 : Ysum ω 0 sats lams = 0 := flowRatios_sum_zero _ _ hz
  refine ⟨hY0, ?_⟩
  unfold Ysum at hY0
  obtain ⟨n, rfl⟩ : ∃ n, fuel = n + 1 := ⟨fuel - 1, by omega⟩
  have hacc : acceptedAttempt ω sats lams (n + 1) = some 0 := by
    unfold acceptedAttempt
    rw [List.range_succ_eq_map]
    apply List.find?_cons_of_pos
    rw [decide_eq_true_eq, Ysum, hY0]
    norm_num
  obtain ⟨as, has⟩ : ∃ as, exceptMap (fun _W => compute_amber_time tr v a) widths = .ok as :=
    exceptMap_ok_of_forall _ _ (fun x _ =>
      ⟨⌈tr + v / (2 * a)⌉, by
        unfold compute_amber_time
        rw [if_neg (mul_ne_zero two_ne_zero ha)]⟩)
  obtain ⟨rs, hrs⟩ : ∃ rs,
      exceptMap (fun W => compute_all_red_time W vl v) widths = .ok rs :=
    exceptMap_ok_of_forall _ _ (fun x _ =>
      ⟨⌈(x + vl) / v⌉, by
        unfold compute_all_red_time
        rw [if_neg hv]⟩)
  have hlen : 0 < (flowRatios (normalFlows ω 0 lams.length) sats).length := by
    rw [flowRatios_length, normalFlows_length, hs]
    simpa using List.length_pos.mpr hlam
  obtain ⟨y0, rest, hfr⟩ : ∃ y0 rest,
      flowRatios (normalFlows ω 0 lams.length) sats = y0 :: rest := by
    cases hfr : flowRatios (normalFlows ω 0 lams.length) sats with
    | nil => rw [hfr] at hlen; simp at hlen
    | cons a l => exact ⟨a, l, rfl⟩
  have hsum0 : (flowRatios (normalFlows ω 0 lams.length) sats).sum = 0 := hY0
  unfold compute_signal_config_with_poisson
  rw [hacc]
  simp only [has, hrs]
  rw [hsum0, hfr]
  have hweb : ∃ C, websters_method ((as ++ rs).sum : ℤ) 0 = .ok C :=
    ⟨_, by unfold websters_method; rw [if_neg (by norm_num)]⟩
  obtain ⟨C, hC⟩ := hweb
  rw [hC]
  have hg : compute_green_time y0 0 C ((as ++ rs).sum : ℤ) = .error .zeroDivision := by
    unfold compute_green_time
    rw [if_pos rfl]
  split
  · rename_i e he
    simp at he
  · rename_i C2 he
    injection he with he2
    subst he2
    rw [exceptMap_error_head (fun y => compute_green_time y 0 C ((as ++ rs).sum : ℤ))
      y0 rest SeedErr.zeroDivision hg]

/-- C3 witness: a concrete one-phase seeder run; the first draw gives
`Y = 1/2 < 1` and the returned configuration has one phase. -/
theorem seeder_Y_lt_one_witness :
    compute_signal_config_with_poisson [120] [1] 1 [1] 2 1 3 (fun _ _ => 1) 1 =
      .ok [⟨18, 2, 2⟩] ∧
    ∃ t, acceptedAttempt (fun _ _ => 1) [120] [1] 1 = some t ∧
      Ysum (fun _ _ => 1) t [120] [1] < 1 ∧
      ([(⟨18, 2, 2⟩ : PhaseConfig)]).length = ([(1 : ℚ)]).length := by
  have hok : compute_signal_config_with_poisson [120] [1] 1 [1] 2 1 3 (fun _ _ => 1) 1 =
      .ok [⟨18, 2, 2⟩] := by
    norm_num [compute_signal_config_with_poisson, acceptedAttempt, Ysum, flowRatios, normalFlows,
      simulate_poisson_arrival_rate, exceptMap, compute_amber_time, compute_all_red_time,
      websters_method, compute_green_time, buildConfig, List.range_succ]
  exact ⟨hok, seeder_Y_lt_one [120] [1] 1 [1] 2 1 3 (fun _ _ => 1) 1 _ (by simp) hok⟩

/-- C10 witness: one phase with saturation flow `0`; the acceptance test
passes with `Y = 0` and the seeder fails with a division-by-zero error. -/
theorem seeder_zero_Y_division_error_witness :
    Ysum (fun _ _ => 0) 0 [0] [1] = 0 ∧
    compute_signal_config_with_poisson [0] [1] 0 [] 1 1 0 (fun _ _ => 0) 1 =
      .error .zeroDivision :=
  seeder_zero_Y_division_error [0] [1] 0 [] 1 1 0 (fun _ _ => 0) 1
    (by norm_num) (by simp) (by simp) (by simp) (by norm_num) (by norm_num)

/-- The python slice `l[lo:hi]` for natural indices (python clamps
out-of-range bounds; `List.drop`/`List.take` do the same). -/
def pySlice (l : List PhaseConfig) (lo hi : ℕ) : List PhaseConfig :=
  (l.drop lo).take (hi - lo)

/-- The segment-alternation loop of `n_point_crossover`: walk the sorted
crossover points, copying `a[prev:point]` into child 1 and `b[prev:point]`
into child 2 when `use_a` holds, swapped otherwise, flipping after each. -/
def segLoop (a b : List PhaseConfig) :
    List ℕ → ℕ → Bool → List PhaseConfig × List PhaseConfig
  | [], _, _ => ([], [])
  | p :: rest, prev, use_a =>
    let tail := segLoop a b rest p (!use_a)
    if use_a then (pySlice a prev p ++ tail.1, pySlice b prev p ++ tail.2)
    else (pySlice b prev p ++ tail.1, pySlice a prev p ++ tail.2)

/-- The trailing clamp of `n_point_crossover`:
`phase.green = max(min_green, phase.green)` for every phase of a child. -/
def clampGreens (min_green : ℚ) (c : List PhaseConfig) : List PhaseConfig :=
  c.map (fun ph => { ph with green := max min_green ph.green })

/-- `n_point_crossover` from `src/algorithms/ga/ga.py`. The random sample
`sample(range(1, num_phases), n)` is the explicit input `pts` (the function
sorts it, as the source sorts its sample); the point count `n` itself is
used only to size the sample, which the theorems state as hypotheses on
`pts`. Mismatched parent lengths raise `ValueError`. -/
def n_point_crossover (a b : List PhaseConfig) (n : ℕ) (pts : List ℕ) (min_green : ℚ) :
    Except String (List PhaseConfig × List PhaseConfig) :=
  if a.length ≠ b.length then .error "Parent configurations must have equal length"
  else
    let num_phases := a.length
    let crossover_points := (pts.mergeSort (fun p q => decide (p ≤ q))) ++ [num_phases]
    let cs := segLoop a b crossover_points 0 true
    .ok (clampGreens min_green cs.1, clampGreens min_green cs.2)

theorem pySlice_length (l : List PhaseConfig) (lo hi : ℕ) :
    (pySlice l lo hi).length = min (hi - lo) (l.length - lo) := by
  simp [pySlice]

theorem segLoop_spec (a b : List PhaseConfig) (hab : b.length = a.length) :
    ∀ (cps : List ℕ) (prev : ℕ) (u : Bool),
      List.Chain (· ≤ ·) prev cps → (∀ p ∈ cps, p ≤ a.length) →
      (segLoop a b cps prev u).1.length = cps.getLastD prev - prev ∧
      (segLoop a b cps prev u).2.length = cps.getLastD prev - prev ∧
      prev ≤ cps.getLastD prev := by
  intro cps
  induction cps with
  | nil => intro prev u _ _; simp [segLoop]
  | cons p rest ih =>
    intro prev u hchain hb
    rw [List.chain_cons] at hchain
    obtain ⟨hpp, hchain2⟩ := hchain
    have hpb : p ≤ a.length := hb p (List.mem_cons_self _ _)
    have ihr := ih p (!u) hchain2 (fun q hq => hb q (List.mem_cons_of_mem _ hq))
    have hsa : (pySlice a prev p).length = p - prev := by
      rw [pySlice_length]; omega
    have hsb : (pySlice b prev p).length = p - prev := by
      rw [pySlice_length, hab]; omega
    rw [List.getLastD_cons]
    cases u <;>
      simp only [segLoop, Bool.false_eq_true, if_false, if_true, List.length_append,
        hsa, hsb] <;>
      exact ⟨by omega, by omega, by omega⟩

theorem crossover_points_sorted (pts : List ℕ) (N : ℕ)
    (hmem : ∀ p ∈ pts, 1 ≤ p ∧ p < N) :
    List.Chain (· ≤ ·) 0 ((pts.mergeSort (fun p q => decide (p ≤ q))) ++ [N]) ∧
    (∀ p ∈ (pts.mergeSort (fun p q => decide (p ≤ q))) ++ [N], p ≤ N) := by
  have hperm := List.mergeSort_perm pts (fun p q => decide (p ≤ q))
  have hmem2 : ∀ p ∈ pts.mergeSort (fun p q => decide (p ≤ q)), p < N := by
    intro p hp
    exact (hmem p (hperm.mem_iff.mp hp)).2
  have hsorted : (pts.mergeSort (fun p q => decide (p ≤ q))).Pairwise (· ≤ ·) := by
    have := @List.sorted_mergeSort ℕ (fun p q => decide (p ≤ q))
      (fun x y z h1 h2 => decide_eq_true (Nat.le_trans (of_decide_eq_true h1)
        (of_decide_eq_true h2)))
      (fun x y => by simpa using Nat.le_total x y) pts
    exact this.imp (fun h => of_decide_eq_true h)
  constructor
  · rw [List.chain_iff_pairwise]
    rw [List.pairwise_cons]
    refine ⟨fun q _ => Nat.zero_le q, ?_⟩
    rw [List.pairwise_append]
    refine ⟨hsorted, List.pairwise_singleton _ _, ?_⟩
    intro x hx y hy
    rw [List.mem_singleton] at hy
    subst hy
    exact Nat.le_of_lt (hmem2 x hx)
  · intro p hp
    rw [List.mem_append, List.mem_singleton] at hp
    rcases hp with hp | rfl
    · exact Nat.le_of_lt (hmem2 p hp)
    · exact Nat.le_refl _

/-- C4: for equal-length parents with at least one phase and any point count
`n ≥ 1` (the source clamps `n` to `phase_count − 1` when `n ≥ phase_count`,
so the sampled point set has size `min`-clamped accordingly),
`n_point_crossover` returns exactly two children, each of the parents'
length, and every phase of both children has `green ≥ MIN_GREEN = 5`. -/
theorem n_point_crossover_spec (a b : List PhaseConfig) (n : ℕ) (pts : List ℕ)
    (hab : a.length = b.length) (hpos : 1 ≤ a.length) (hn : 1 ≤ n)
    (hnd : pts.Nodup) (hmem : ∀ p ∈ pts, 1 ≤ p ∧ p < a.length)
    (hcard : pts.length = if a.length ≤ n then a.length - 1 else n) :
    ∃ c1 c2, n_point_crossover a b n pts 5 = .ok (c1, c2) ∧
      c1.length = a.length ∧ c2.length = a.length ∧
      (∀ ph ∈ c1, 5 ≤ ph.green) ∧ (∀ ph ∈ c2, 5 ≤ ph.green) := by
  obtain ⟨hchain, hball⟩ := crossover_points_sorted pts a.length hmem
  have hseg := segLoop_spec a b hab.symm
    ((pts.mergeSort (fun p q => decide (p ≤ q))) ++ [a.length]) 0 true hchain hball
  rw [List.getLastD_concat] at hseg
  have hres : n_point_crossover a b n pts 5 =
      .ok (clampGreens 5 (segLoop a b
            ((pts.mergeSort (fun p q => decide (p ≤ q))) ++ [a.length]) 0 true).1,
          clampGreens 5 (segLoop a b
            ((pts.mergeSort (fun p q => decide (p ≤ q))) ++ [a.length]) 0 true).2) := by
    unfold n_point_crossover
    rw [if_neg (fun h => h hab)]
  refine ⟨_, _, hres, ?_, ?_, ?_, ?_⟩
  · simpa [clampGreens] using hseg.1
  · simpa [clampGreens] using hseg.2.1
  · intro ph hph
    simp only [clampGreens, List.mem_map] at hph
    obtain ⟨q, _, rfl⟩ := hph
    exact le_max_left _ _
  · intro ph hph
    simp only [clampGreens, List.mem_map] at hph
    obtain ⟨q, _, rfl⟩ := hph
    exact le_max_left _ _

/-- C4 witness: three-phase parents, `n = 2`, sampled points `[2, 1]`. -/
theorem n_point_crossover_spec_witness :
    ∃ c1 c2, n_point_crossover [⟨6, 1, 1⟩, ⟨2, 1, 1⟩, ⟨9, 1, 1⟩]
        [⟨3, 2, 2⟩, ⟨8, 2, 2⟩, ⟨4, 2, 2⟩] 2 [2, 1] 5 = .ok (c1, c2) ∧
      c1.length = ([⟨6, 1, 1⟩, ⟨2, 1, 1⟩, ⟨9, 1, 1⟩] : List PhaseConfig).length ∧
      c2.length = ([⟨6, 1, 1⟩, ⟨2, 1, 1⟩, ⟨9, 1, 1⟩] : List PhaseConfig).length ∧
      (∀ ph ∈ c1, 5 ≤ ph.green) ∧ (∀ ph ∈ c2, 5 ≤ ph.green) :=
  n_point_crossover_spec _ _ _ _ (by decide) (by decide) (by decide) (by decide)
    (by decide) (by decide)

/-- C9: `n_point_crossover` on parents of different lengths always fails
with the length-mismatch `ValueError` and never returns children. -/
theorem n_point_crossover_mismatch (a b : List PhaseConfig) (n : ℕ) (pts : List ℕ)
    (min_green : ℚ) (hab : a.length ≠ b.length) :
    n_point_crossover a b n pts min_green =
      .error "Parent configurations must have equal length" := by
  unfold n_point_crossover
  rw [if_pos hab]

/-- C9 witness: a one-phase parent against a two-phase parent. -/
theorem n_point_crossover_mismatch_witness :
    n_point_crossover [⟨10, 3, 2⟩] [⟨10, 3, 2⟩, ⟨7, 3, 2⟩] 1 [1] 5 =
      .error "Parent configurations must have equal length" :=
  n_point_crossover_mismatch _ _ _ _ _ (by simp)

/-- The recorded shift after the clamp of the mutated phase in `mutation`
(`mutation += min_green - mutated_configuration[i].green` when the shifted
green falls below `min_green`): the original continuous draw adjusted by the
clamped amount. -/
def appliedShift (cfg : List PhaseConfig) (i : ℕ) (shift : ℚ) (min_green : ℚ) : ℚ :=
  let g0 := (cfg.getD i default).green + ((truncZ shift : ℤ) : ℚ)
  if g0 < min_green then shift + (min_green - g0) else shift

/-- The per-remaining-phase redistribution of `mutation`:
`int(-mutation / (num_phases - 1))`, truncated toward zero. -/
def redistribution (cfg : List PhaseConfig) (i : ℕ) (shift : ℚ) (min_green : ℚ) : ℚ :=
  ((truncZ (-(appliedShift cfg i shift min_green) / ((cfg.length : ℚ) - 1)) : ℤ) : ℚ)

/-- `mutation` from `src/algorithms/ga/ga.py` (green-time-shift mutation).
`i` is the uniformly drawn phase index (`randint(0, num_phases - 1)`) and
`shift` the continuous draw `uniform(-delta, delta)`; both are explicit
inputs. Returns the input unchanged when `num_phases ≤ 1`. -/
def mutation (cfg : List PhaseConfig) (i : ℕ) (shift : ℚ) (min_green : ℚ) :
    List PhaseConfig :=
  if cfg.length ≤ 1 then cfg
  else
    let g0 := (cfg.getD i default).green + ((truncZ shift : ℤ) : ℚ)
    let gi := if g0 < min_green then min_green else g0
    let red := redistribution cfg i shift min_green
    let afterRed := (List.range cfg.length).map (fun j =>
      if j = i then { cfg.getD j default with green := gi }
      else
        let ph := cfg.getD j default
        let g := ph.green + red
        { ph with green := if g < min_green then min_green else g })
    afterRed.map (fun ph =>
      if ph.green < min_green then { ph with green := min_green } else ph)

/-- C5: for a configuration with at least two phases, any chosen phase and
any shift in `[-δ, δ]`, `mutation` adds the integer-truncated shift to the
chosen phase and clamps it to `MIN_GREEN = 5` (adjusting the recorded shift
by the clamped amount), adds the integer-truncated per-phase redistribution
`-(applied shift) / (phase_count - 1)` to every other phase, and clamps all
phases to `MIN_GREEN`; the phase count is preserved, every resulting green
is `≥ MIN_GREEN`, and for `phase_count ≤ 1` the input is returned
unchanged. -/
theorem mutation_spec (cfg : List PhaseConfig) (i : ℕ) (shift δ : ℚ) :
    (∀ (cfg2 : List PhaseConfig) (i2 : ℕ) (s2 : ℚ), cfg2.length ≤ 1 →
      mutation cfg2 i2 s2 5 = cfg2) ∧
    (2 ≤ cfg.length → i < cfg.length → -δ ≤ shift → shift ≤ δ →
      (mutation cfg i shift 5).length = cfg.length ∧
      (∀ ph ∈ mutation cfg i shift 5, 5 ≤ ph.green) ∧
      ((mutation cfg i shift 5).getD i default).green =
        max 5 ((cfg.getD i default).green + ((truncZ shift : ℤ) : ℚ)) ∧
      (∀ j, j < cfg.length → j ≠ i →
        ((mutation cfg i shift 5).getD j default).green =
          max 5 ((cfg.getD j default).green + redistribution cfg i shift 5))) := by
  constructor
  · intro cfg2 i2 s2 h
    unfold mutation
    rw [if_pos h]
  · intro h2 hi _ _
    have hnot : ¬ cfg.length ≤ 1 := by omega
    have hmut : mutation cfg i shift 5 =
        ((List.range cfg.length).map (fun j =>
          if j = i then { cfg.getD j default with green :=
            if (cfg.getD i default).green + ((truncZ shift : ℤ) : ℚ) < 5 then 5
            else (cfg.getD i default).green + ((truncZ shift : ℤ) : ℚ) }
          else { cfg.getD j default with green :=
            if (cfg.getD j default).green + redistribution cfg i shift 5 < 5 then 5
            else (cfg.getD j default).green + redistribution cfg i shift 5 })).map
          (fun ph => if ph.green < 5 then { ph with green := 5 } else ph) := by
      unfold mutation
      rw [if_neg hnot]
    have hlen : (mutation cfg i shift 5).length = cfg.length := by
      rw [hmut]; simp
    refine ⟨hlen, ?_, ?_, ?_⟩
    · intro ph hph
      rw [hmut] at hph
      rw [List.mem_map] at hph
      obtain ⟨q, _, rfl⟩ := hph
      by_cases hq : q.green < 5
      · rw [if_pos hq]
      · rw [if_neg hq]
        exact le_of_not_lt hq
    · rw [hmut, List.getD_eq_getElem _ _ (by simpa using hi)]
      simp only [List.getElem_map, List.getElem_range, if_true, eq_self_iff_true]
      by_cases hcase : (cfg.getD i default).green + ((truncZ shift : ℤ) : ℚ) < 5
      · rw [if_pos hcase]
        simp only [if_neg (lt_irrefl (5 : ℚ))]
        rw [max_eq_left (le_of_lt hcase)]
      · rw [if_neg hcase]
        rw [if_neg hcase]
        rw [max_eq_right (le_of_not_lt hcase)]
    · intro j hj hji
      rw [hmut, List.getD_eq_getElem _ _ (by simpa using hj)]
      simp only [List.getElem_map, List.getElem_range]
      rw [if_neg hji]
      by_cases hcase : (cfg.getD j default).green + redistribution cfg i shift 5 < 5
      · rw [if_pos hcase]
        simp only [if_neg (lt_irrefl (5 : ℚ))]
        rw [max_eq_left (le_of_lt hcase)]
      · rw [if_neg hcase]
        rw [if_neg hcase]
        rw [max_eq_right (le_of_not_lt hcase)]

/-- C5 witness: a two-phase configuration, mutated phase `0`, shift `3`
within `[-5, 5]`; and a one-phase configuration returned unchanged. -/
theorem mutation_spec_witness :
    mutation [⟨6, 1, 1⟩] 0 3 5 = [⟨6, 1, 1⟩] ∧
    (mutation [⟨6, 1, 1⟩, ⟨20, 1, 1⟩] 0 3 5).length = 2 ∧
    (∀ ph ∈ mutation [⟨6, 1, 1⟩, ⟨20, 1, 1⟩] 0 3 5, 5 ≤ ph.green) := by
  have h := mutation_spec [⟨6, 1, 1⟩, ⟨20, 1, 1⟩] 0 3 5
  have hmain := h.2 (by decide) (by decide) (by norm_num) (by norm_num)
  exact ⟨h.1 _ 0 3 (by decide), hmain.1, hmain.2.1⟩

/-- `fitness` from `src/algorithms/ga/ga.py`. The external SUMO evaluation
(`_evaluate_config` run in a temporary directory) is the oracle parameter
`ev`; a python exception from it is an `Except.error`. Scores live in
`WithTop ℚ`, whose `⊤` models the python float-infinity sentinel. -/
def fitness (ev : TrafficConfiguration → Except String (WithTop ℚ))
    (cfg : TrafficConfiguration) : WithTop ℚ :=
  if cfg.any (fun ph => decide (ph.green < 5)) then ⊤
  else
    match ev cfg with
    | .ok s => s
    | .error _ => ⊤

/-- C6: `fitness` returns the sentinel `⊤` for any configuration with a
phase whose green time is below `MIN_GREEN = 5`, and then its result does
not depend on the evaluator at all (the external evaluator is not invoked);
an evaluator exception is caught and mapped to the sentinel. -/
theorem fitness_spec (ev : TrafficConfiguration → Except String (WithTop ℚ))
    (cfg : TrafficConfiguration) :
    ((∃ ph ∈ cfg, ph.green < 5) →
      fitness ev cfg = ⊤ ∧
      ∀ ev2 : TrafficConfiguration → Except String (WithTop ℚ),
        fitness ev2 cfg = fitness ev cfg) ∧
    (∀ e, ev cfg = .error e → fitness ev cfg = ⊤) := by
  constructor
  · intro hbad
    have hany : cfg.any (fun ph => decide (ph.green < 5)) = true := by
      rw [List.any_eq_true]
      obtain ⟨ph, hmem, hlt⟩ := hbad
      exact ⟨ph, hmem, decide_eq_true hlt⟩
    constructor
    · unfold fitness
      rw [if_pos hany]
    · intro ev2
      unfold fitness
      rw [if_pos hany, if_pos hany]
  · intro e he
    unfold fitness
    by_cases hany : cfg.any (fun ph => decide (ph.green < 5)) = true
    · rw [if_pos hany]
    · rw [if_neg hany, he]

/-- C6 witness: a configuration with green `3 < 5` gets the sentinel under
any evaluator; a valid configuration whose evaluator raises also gets it. -/
theorem fitness_spec_witness :
    fitness (fun _ => .ok 7) [⟨3, 1, 1⟩] = ⊤ ∧
    fitness (fun _ => .error "sumo crashed") [⟨10, 1, 1⟩] = ⊤ := by
  constructor
  · exact ((fitness_spec (fun _ => .ok 7) [⟨3, 1, 1⟩]).1
      ⟨⟨3, 1, 1⟩, by simp, by norm_num⟩).1
  · exact (fitness_spec (fun _ => .error "sumo crashed") [⟨10, 1, 1⟩]).2
      "sumo crashed" rfl

/-- python `bisect.bisect_right(a, x, lo, hi)`: binary search returning the
rightmost insertion point for `x` in `a[lo:hi]`, exactly as the reference
implementation (`while lo < hi: mid = (lo+hi)//2; ...`). -/
def bisectRight (a : List ℚ) (x : ℚ) (lo hi : ℕ) : ℕ :=
  if lo < hi then
    let mid := (lo + hi) / 2
    if x < a.getD mid 0 then bisectRight a x lo mid
    else bisectRight a x (mid + 1) hi
  else lo
termination_by hi - lo
decreasing_by
  · omega
  · omega

/-- `itertools.accumulate` of the weights, as used by `random.choices`:
the running partial sums (without a leading zero). -/
def cumWeights (ws : List ℚ) : List ℚ := (ws.scanl (· + ·) 0).tail

/-- `selection` from `src/algorithms/ga/ga.py`: `random.choices(population,
weights=[fitness_func(c) for c in population], k=2)` — fitness-proportional
sampling with replacement using the raw fitness scores as draw weights.
`u1`, `u2` are the two `random()` draws; python picks
`population[bisect(cum_weights, u * total, 0, n - 1)]` for each. An empty
population raises in python; the theorems assume it nonempty. -/
def selection (population : Population) (f : TrafficConfiguration → ℚ) (u1 u2 : ℚ) :
    Population :=
  let weights := population.map f
  let cum := cumWeights weights
  let total := cum.getLastD 0
  let hi := population.length - 1
  [population.getD (bisectRight cum (u1 * total) 0 hi) [],
   population.getD (bisectRight cum (u2 * total) 0 hi) []]

theorem bisectRight_bounds (a : List ℚ) (x : ℚ) :
    ∀ (n lo hi : ℕ), hi - lo ≤ n → lo ≤ hi →
      lo ≤ bisectRight a x lo hi ∧ bisectRight a x lo hi ≤ hi := by
  intro n
  induction n with
  | zero =>
    intro lo hi h1 h2
    have heq : lo = hi := by omega
    subst heq
    unfold bisectRight
    rw [if_neg (lt_irrefl lo)]
    exact ⟨le_refl _, le_refl _⟩
  | succ n ih =>
    intro lo hi h1 h2
    unfold bisectRight
    by_cases hlt : lo < hi
    · rw [if_pos hlt]
      by_cases hx : x < a.getD ((lo + hi) / 2) 0
      · rw [if_pos hx]
        have hrec := ih lo ((lo + hi) / 2) (by omega) (by omega)
        exact ⟨hrec.1, le_trans hrec.2 (by omega)⟩
      · rw [if_neg hx]
        have hrec := ih ((lo + hi) / 2 + 1) hi (by omega) (by omega)
        exact ⟨le_trans (by omega) hrec.1, hrec.2⟩
    · rw [if_neg hlt]
      exact ⟨le_refl _, h2⟩

/-- C7: `selection` returns exactly two individuals, both drawn from the
current population (with replacement: each of the two draws indexes the same
unchanged population), and the draw weights are the raw fitness scores
`population.map f` — no inversion or rank transform: each returned element
is `population[bisect(cumWeights (population.map f), u * total, 0, n-1)]`. -/
theorem selection_spec (population : Population) (f : TrafficConfiguration → ℚ)
    (u1 u2 : ℚ) (hne : population ≠ []) :
    (selection population f u1 u2).length = 2 ∧
    (∀ c ∈ selection population f u1 u2, c ∈ population) ∧
    selection population f u1 u2 =
      [population.getD (bisectRight (cumWeights (population.map f))
          (u1 * (cumWeights (population.map f)).getLastD 0) 0 (population.length - 1)) [],
        population.getD (bisectRight (cumWeights (population.map f))
          (u2 * (cumWeights (population.map f)).getLastD 0) 0 (population.length - 1)) []] := by
  have hpos : 0 < population.length := List.length_pos.mpr hne
  have hmem : ∀ u : ℚ, population.getD (bisectRight (cumWeights (population.map f))
      (u * (cumWeights (population.map f)).getLastD 0) 0 (population.length - 1)) [] ∈
      population := by
    intro u
    have hb := bisectRight_bounds (cumWeights (population.map f))
      (u * (cumWeights (population.map f)).getLastD 0) (population.length - 1) 0
      (population.length - 1) (by omega) (by omega)
    have hidx : bisectRight (cumWeights (population.map f))
        (u * (cumWeights (population.map f)).getLastD 0) 0 (population.length - 1) <
        population.length := by omega
    rw [List.getD_eq_getElem _ _ hidx]
    exact List.getElem_mem _
  exact ⟨rfl, by
    intro c hc
    simp only [selection, List.mem_cons, List.not_mem_nil, or_false] at hc
    rcases hc with rfl | rfl
    · exact hmem u1
    · exact hmem u2, rfl⟩

/-- C7 witness: a concrete two-individual population with distinct fitness
scores wins membership and the exact-two-draws shape. -/
theorem selection_spec_witness :
    (selection [[⟨10, 1, 1⟩], [⟨7, 1, 1⟩]] (fun c => (c.map PhaseConfig.green).sum)
      0 (1 / 2)).length = 2 ∧
    (∀ c ∈ selection [[⟨10, 1, 1⟩], [⟨7, 1, 1⟩]] (fun c => (c.map PhaseConfig.green).sum)
      0 (1 / 2), c ∈ [[(⟨10, 1, 1⟩ : PhaseConfig)], [⟨7, 1, 1⟩]]) := by
  have h := selection_spec [[⟨10, 1, 1⟩], [⟨7, 1, 1⟩]]
    (fun c => (c.map PhaseConfig.green).sum) 0 (1 / 2) (by simp)
  exact ⟨h.1, h.2.1⟩

/-- The offspring `while` loop of `run_evolution`
(`while len(next_gen) < len(population) - 1`), instrumented with the number
of executed iterations: each iteration performs exactly one `selection` call
and one `crossover` call, whose produced offspring list is abstracted as the
oracle `body` (iteration index ↦ offspring); `fuel` bounds the modelled
iteration count. -/
def offspringLoop (popLen : ℕ) (body : ℕ → List TrafficConfiguration) :
    ℕ → List TrafficConfiguration → ℕ → List TrafficConfiguration × ℕ
  | 0, next_gen, count => (next_gen, count)
  | fuel + 1, next_gen, count =>
    if next_gen.length < popLen - 1 then
      offspringLoop popLen body fuel (next_gen ++ body count) (count + 1)
    else (next_gen, count)

/-- One generation of `run_evolution` from `src/algorithms/ga/ga.py`:
sort the population ascending by fitness (python's stable key sort),
take `top_1 = population[0]`, initialize `next_gen = population[1:]`,
run the offspring loop, apply `mutation` to every member of `next_gen`
(`mut k c` models `mutation(config)` with its fresh random draws at position
`k`), and append the elite unmutated. Returns the new population together
with the loop iteration count. -/
def genStep {α : Type} [LinearOrder α] (f : TrafficConfiguration → α)
    (mu : ℕ → TrafficConfiguration → TrafficConfiguration)
    (body : ℕ → List TrafficConfiguration) (fuel : ℕ)
    (population : List TrafficConfiguration) : List TrafficConfiguration × ℕ :=
  let sorted := population.mergeSort (fun x y => decide (f x ≤ f y))
  let top_1 := sorted.headD []
  let filled := offspringLoop population.length body fuel (sorted.drop 1) 0
  ((filled.1.mapIdx (fun k c => mu k c)) ++ [top_1], filled.2)

/-- The population held at the start of generation `g` of `run_evolution`
(`popAtGen 0` is the initial population); `mut g` and `body g` supply the
generation-local randomness. -/
def popAtGen {α : Type} [LinearOrder α] (f : TrafficConfiguration → α)
    (mu : ℕ → ℕ → TrafficConfiguration → TrafficConfiguration)
    (body : ℕ → ℕ → List TrafficConfiguration) (fuel : ℕ)
    (pop0 : List TrafficConfiguration) : ℕ → List TrafficConfiguration
  | 0 => pop0
  | g + 1 => (genStep f (mu g) (body g) fuel (popAtGen f mu body fuel pop0 g)).1

/-- `run_evolution` from `src/algorithms/ga/ga.py`: run `generation_limit`
generations and return the final population sorted ascending by fitness
together with the last generation index. -/
def run_evolution {α : Type} [LinearOrder α] (f : TrafficConfiguration → α)
    (mu : ℕ → ℕ → TrafficConfiguration → TrafficConfiguration)
    (body : ℕ → ℕ → List TrafficConfiguration) (fuel generation_limit : ℕ)
    (pop0 : List TrafficConfiguration) : List TrafficConfiguration × ℕ :=
  ((popAtGen f mu body fuel pop0 generation_limit).mergeSort
    (fun x y => decide (f x ≤ f y)), generation_limit - 1)

/-- best (minimum) fitness value over a population. -/
def bestFitness {α : Type} [LinearOrder α] (f : TrafficConfiguration → α)
    (pop : List TrafficConfiguration) : WithTop α :=
  (pop.map f).minimum

theorem offspringLoop_noop (popLen : ℕ) (body : ℕ → List TrafficConfiguration)
    (fuel : ℕ) (next_gen : List TrafficConfiguration)
    (h : ¬ next_gen.length < popLen - 1) :
    offspringLoop popLen body fuel next_gen 0 = (next_gen, 0) := by
  cases fuel with
  | zero => rfl
  | succ n =>
    unfold offspringLoop
    rw [if_neg h]

theorem genStep_eq {α : Type} [LinearOrder α] (f : TrafficConfiguration → α)
    (mu : ℕ → TrafficConfiguration → TrafficConfiguration)
    (body : ℕ → List TrafficConfiguration) (fuel : ℕ)
    (population : List TrafficConfiguration) :
    genStep f mu body fuel population =
      (((population.mergeSort (fun x y => decide (f x ≤ f y))).drop 1).mapIdx
          (fun k c => mu k c) ++
        [(population.mergeSort (fun x y => decide (f x ≤ f y))).headD []], 0) := by
  simp only [genStep]
  rw [offspringLoop_noop _ _ _ _ (by simp)]

theorem genStep_ne_nil {α : Type} [LinearOrder α] (f : TrafficConfiguration → α)
    (mu : ℕ → TrafficConfiguration → TrafficConfiguration)
    (body : ℕ → List TrafficConfiguration) (fuel : ℕ)
    (pop : List TrafficConfiguration) : (genStep f mu body fuel pop).1 ≠ [] := by
  rw [genStep_eq]
  simp

theorem popAtGen_ne_nil {α : Type} [LinearOrder α] (f : TrafficConfiguration → α)
    (mu : ℕ → ℕ → TrafficConfiguration → TrafficConfiguration)
    (body : ℕ → ℕ → List TrafficConfiguration) (fuel : ℕ)
    (pop0 : List TrafficConfiguration) (hne : pop0 ≠ []) :
    ∀ g, popAtGen f mu body fuel pop0 g ≠ [] := by
  intro g
  cases g with
  | zero => exact hne
  | succ g => exact genStep_ne_nil f (mu g) (body g) fuel _

theorem genStep_best_le {α : Type} [LinearOrder α] (f : TrafficConfiguration → α)
    (mu : ℕ → TrafficConfiguration → TrafficConfiguration)
    (body : ℕ → List TrafficConfiguration) (fuel : ℕ)
    (pop : List TrafficConfiguration) (hne : pop ≠ []) :
    bestFitness f (genStep f mu body fuel pop).1 ≤ bestFitness f pop := by
  have hlen : (pop.mergeSort (fun x y => decide (f x ≤ f y))).length = pop.length := by
    simp
  obtain ⟨t, rest, hst⟩ : ∃ t rest,
      pop.mergeSort (fun x y => decide (f x ≤ f y)) = t :: rest := by
    cases hst : pop.mergeSort (fun x y => decide (f x ≤ f y)) with
    | nil =>
      rw [hst] at hlen
      exact absurd (List.length_eq_zero.mp hlen.symm) hne
    | cons t rest => exact ⟨t, rest, rfl⟩
  have h1 : (genStep f mu body fuel pop).1 =
      ((pop.mergeSort (fun x y => decide (f x ≤ f y))).drop 1).mapIdx
        (fun k c => mu k c) ++ [t] := by
    rw [genStep_eq, hst]
    rfl
  have hmemt : f t ∈ ((genStep f mu body fuel pop).1.map f) := by
    rw [h1]
    exact List.mem_map_of_mem f (by simp)
  have hle1 : bestFitness f (genStep f mu body fuel pop).1 ≤ (f t : WithTop α) :=
    List.minimum_le_of_mem' hmemt
  have hsorted := @List.sorted_mergeSort _ (fun x y => decide (f x ≤ f y))
    (fun x y z h1 h2 => decide_eq_true (le_trans (of_decide_eq_true h1)
      (of_decide_eq_true h2)))
    (fun x y => by simpa using le_total (f x) (f y)) pop
  have hforall : ∀ x ∈ pop, f t ≤ f x := by
    intro x hx
    have hx2 : x ∈ t :: rest := by
      rw [← hst]
      exact List.mem_mergeSort.mpr hx
    rcases List.mem_cons.mp hx2 with rfl | hx3
    · exact le_refl _
    · have hp : List.Pairwise (fun a b => decide (f a ≤ f b) = true) (t :: rest) :=
        hst ▸ hsorted
      exact of_decide_eq_true (List.rel_of_pairwise_cons hp hx3)
  have hle2 : (f t : WithTop α) ≤ bestFitness f pop := by
    apply List.le_minimum_of_forall_le
    intro a ha
    rw [List.mem_map] at ha
    obtain ⟨x, hx, rfl⟩ := ha
    exact_mod_cast hforall x hx
  exact le_trans hle1 hle2

/-- C1 (amended): in every generation of `run_evolution`, `next_gen` is
initialized to `population[1:]` of the fitness-sorted population, which
already has `population_size − 1` members, so the `while` loop that would
fill the next generation through `selection` and `crossover` executes zero
iterations — `selection` and `crossover` are never invoked — and every
non-elite member of the next generation is a mutated copy of a non-best
member of the sorted current population; the size `population_size − 1`
before the elite is appended (hence `population_size` after) still holds. -/
theorem run_evolution_no_crossover {α : Type} [LinearOrder α]
    (f : TrafficConfiguration → α)
    (mu : ℕ → TrafficConfiguration → TrafficConfiguration)
    (body : ℕ → List TrafficConfiguration) (fuel : ℕ)
    (population : List TrafficConfiguration) :
    (genStep f mu body fuel population).2 = 0 ∧
    (genStep f mu body fuel population).1 =
      ((population.mergeSort (fun x y => decide (f x ≤ f y))).drop 1).mapIdx
        (fun k c => mu k c) ++
      [(population.mergeSort (fun x y => decide (f x ≤ f y))).headD []] ∧
    (population ≠ [] →
      (genStep f mu body fuel population).1.length = population.length) := by
  rw [genStep_eq]
  refine ⟨rfl, rfl, fun hne => ?_⟩
  have := List.length_pos.mpr hne
  simp only [List.length_append, List.length_mapIdx, List.length_drop,
    List.length_mergeSort, List.length_cons, List.length_nil]
  omega

/-- C1 witness: the amended theorem at a concrete two-individual
population. -/
theorem run_evolution_no_crossover_witness :
    (genStep (fun c => c.length) (fun _ c => mutation c 0 0 5) (fun _ => [])
      10 [[⟨10, 3, 2⟩], [⟨7, 3, 2⟩]]).2 = 0 ∧
    (genStep (fun c => c.length) (fun _ c => mutation c 0 0 5) (fun _ => [])
      10 [[⟨10, 3, 2⟩], [⟨7, 3, 2⟩]]).1.length =
      ([[⟨10, 3, 2⟩], [⟨7, 3, 2⟩]] : Population).length := by
  have h := run_evolution_no_crossover (fun c : TrafficConfiguration => c.length)
    (fun _ c => mutation c 0 0 5) (fun _ => []) 10 [[⟨10, 3, 2⟩], [⟨7, 3, 2⟩]]
  exact ⟨h.1, h.2.2 (by simp)⟩

unseal List.merge List.mergeSort in
/-- C1 counterexample: the claim as stated fails on a concrete
two-individual population: it demands that every non-elite member of the
next generation be a crossover offspring of selected parents appended by
the offspring loop, which requires at least one loop iteration (each
iteration is exactly one `selection` plus one `crossover` call), but the
instrumented iteration count is `0` and the single non-elite member of the
next generation is the mutated copy (here: unchanged, being single-phase)
of an original non-best individual. -/
theorem run_evolution_crossover_counterexample :
    2 ≤ ([[⟨10, 3, 2⟩], [⟨7, 3, 2⟩]] : Population).length ∧
    (genStep (fun c => c.length) (fun _ c => mutation c 0 0 5) (fun _ => [])
      10 [[⟨10, 3, 2⟩], [⟨7, 3, 2⟩]]).2 = 0 ∧
    (genStep (fun c => c.length) (fun _ c => mutation c 0 0 5) (fun _ => [])
      10 [[⟨10, 3, 2⟩], [⟨7, 3, 2⟩]]).1 = [[⟨7, 3, 2⟩], [⟨10, 3, 2⟩]] :=
  ⟨by simp, rfl, rfl⟩

/-- C2: for any (deterministic) fitness function, any mutation randomness
and any loop-body oracle, the best (minimum) fitness across the generations
of `run_evolution` is non-increasing, and the best individual of each
generation is appended unmutated as the last element of the next
generation. -/
theorem run_evolution_best_fitness_monotone {α : Type} [LinearOrder α]
    (f : TrafficConfiguration → α)
    (mu : ℕ → ℕ → TrafficConfiguration → TrafficConfiguration)
    (body : ℕ → ℕ → List TrafficConfiguration) (fuel : ℕ)
    (pop0 : List TrafficConfiguration) (hne : pop0 ≠ []) (g : ℕ) :
    bestFitness f (popAtGen f mu body fuel pop0 (g + 1)) ≤
      bestFitness f (popAtGen f mu body fuel pop0 g) ∧
    (popAtGen f mu body fuel pop0 (g + 1)).getLast? =
      some (((popAtGen f mu body fuel pop0 g).mergeSort
        (fun x y => decide (f x ≤ f y))).headD []) := by
  constructor
  · exact genStep_best_le f (mu g) (body g) fuel _
      (popAtGen_ne_nil f mu body fuel pop0 hne g)
  · show (genStep f (mu g) (body g) fuel (popAtGen f mu body fuel pop0 g)).1.getLast? = _
    rw [genStep_eq]
    simp

/-- C2 witness: the monotonicity instance at a concrete two-individual
population and the first generation. -/
theorem run_evolution_best_fitness_monotone_witness :
    bestFitness (fun c => c.length)
      (popAtGen (fun c => c.length) (fun _ _ c => mutation c 0 0 5)
        (fun _ _ => []) 10 [[⟨10, 3, 2⟩], [⟨7, 3, 2⟩]] 1) ≤
    bestFitness (fun c => c.length)
      (popAtGen (fun c => c.length) (fun _ _ c => mutation c 0 0 5)
        (fun _ _ => []) 10 [[⟨10, 3, 2⟩], [⟨7, 3, 2⟩]] 0) :=
  (run_evolution_best_fitness_monotone (fun c => c.length)
    (fun _ _ c => mutation c 0 0 5) (fun _ _ => []) 10
    [[⟨10, 3, 2⟩], [⟨7, 3, 2⟩]] (by simp) 0).1

end TrafficOptimizers
